import Mathlib

/-!
Verification of the vtcd storage/indexing core and the `chaincfg`
network-parameter registry.

The `chaincfg` package (`src/chaincfg/params.go`) is embedded directly from
its source.  The storage engine (ffldb driver, database transaction,
indexers) is present in the repository only through its READMEs and callers,
so it is modelled from the specification (spec.md sections 3 to 5); every
such definition carries a `Modelled from the spec:` doc comment.

Go byte strings are embedded as `List Nat` with each element a byte value;
machine integers are `Nat` with explicit `% 2^w` where overflow matters.
-/

namespace Chaincfg

/-- A Go byte string, as a list of byte values. -/
abbrev Bytes := List Nat

/-- Network parameters, from `chaincfg.Params` (src/chaincfg/params.go).
Only the fields that the registration machinery reads are embedded; the
`wire` package is absent from src, so `Net` magic values are plain `Nat`. -/
structure Params where
  Name : Bytes
  Net : Nat
  Bech32HRPSegwit : Bytes
  PubKeyHashAddrID : Nat
  ScriptHashAddrID : Nat
  PrivateKeyID : Nat
  HDPrivateKeyID : Nat × Nat × Nat × Nat
  HDPublicKeyID : Bytes
  HDCoinType : Nat
deriving Repr

/-- Errors of the chaincfg package: `ErrDuplicateNet` and
`ErrUnknownHDKeyID` (src/chaincfg/params.go). -/
inductive ChainErr
  | ErrDuplicateNet
  | ErrUnknownHDKeyID
deriving DecidableEq, Repr

/-- The package-level registration maps of chaincfg: `registeredNets`,
`pubKeyHashAddrIDs`, `scriptHashAddrIDs`, `bech32SegwitPrefixes`,
`hdPrivToPubKeyIDs` (src/chaincfg/params.go).  Go maps are embedded as
functions; a set becomes a `Bool`-valued function. -/
structure RegState where
  registeredNets : Nat → Bool
  pubKeyHashAddrIDs : Nat → Bool
  scriptHashAddrIDs : Nat → Bool
  bech32SegwitPrefixes : Bytes → Bool
  hdPrivToPubKeyIDs : Nat × Nat × Nat × Nat → Option Bytes

/-- The empty registration state: all package maps start empty. -/
def RegState.empty : RegState where
  registeredNets := fun _ => false
  pubKeyHashAddrIDs := fun _ => false
  scriptHashAddrIDs := fun _ => false
  bech32SegwitPrefixes := fun _ => false
  hdPrivToPubKeyIDs := fun _ => none

/-- The byte value of the character `1`, appended to a bech32
human-readable part to form a segwit address prefix. -/
def oneByte : Nat := 49

/-- `Register` from src/chaincfg/params.go: rejects a duplicate network
magic with `ErrDuplicateNet`, otherwise records the net, the address-ID
bytes, the HD key-ID mapping and the bech32 segwit prefix. -/
def Register (s : RegState) (p : Params) : RegState × Option ChainErr :=
  if s.registeredNets p.Net then
    (s, some .ErrDuplicateNet)
  else
    ({ registeredNets := fun n => if n = p.Net then true else s.registeredNets n
       pubKeyHashAddrIDs := fun b =>
         if b = p.PubKeyHashAddrID then true else s.pubKeyHashAddrIDs b
       scriptHashAddrIDs := fun b =>
         if b = p.ScriptHashAddrID then true else s.scriptHashAddrIDs b
       bech32SegwitPrefixes := fun q =>
         if q = p.Bech32HRPSegwit ++ [oneByte] then true
         else s.bech32SegwitPrefixes q
       hdPrivToPubKeyIDs := fun k =>
         if k = p.HDPrivateKeyID then some p.HDPublicKeyID
         else s.hdPrivToPubKeyIDs k }, none)

/-- `IsPubKeyHashAddrID` from src/chaincfg/params.go. -/
def IsPubKeyHashAddrID (s : RegState) (id : Nat) : Bool :=
  s.pubKeyHashAddrIDs id

/-- `IsScriptHashAddrID` from src/chaincfg/params.go. -/
def IsScriptHashAddrID (s : RegState) (id : Nat) : Bool :=
  s.scriptHashAddrIDs id

/-- ASCII lowercasing of a byte string; `strings.ToLower` restricted to the
byte values the registry stores. -/
def toLowerBytes (x : Bytes) : Bytes :=
  x.map (fun c => if 65 ≤ c ∧ c ≤ 90 then c + 32 else c)

/-- `IsBech32SegwitPrefix` from src/chaincfg/params.go: lowercases its
argument and looks it up among the registered segwit prefixes. -/
def IsBech32SegwitPrefix (s : RegState) (pfx : Bytes) : Bool :=
  s.bech32SegwitPrefixes (toLowerBytes pfx)

/-- `HDPrivateKeyToPublicKeyID` from src/chaincfg/params.go: an id that is
not exactly 4 bytes, or is unregistered, yields `ErrUnknownHDKeyID`;
otherwise the mapped public key id is returned. -/
def HDPrivateKeyToPublicKeyID (s : RegState) (id : Bytes) :
    Except ChainErr Bytes :=
  match id with
  | [a, b, c, d] =>
    match s.hdPrivToPubKeyIDs (a, b, c, d) with
    | some pub => .ok pub
    | none => .error .ErrUnknownHDKeyID
  | _ => .error .ErrUnknownHDKeyID

/-- `ZcoinParams` from src/chaincfg/params.go (fields the registry reads;
the net magic is abstract because the `wire` package is absent from src). -/
def ZcoinParams : Params where
  Name := [120, 122, 99]
  Net := 1
  Bech32HRPSegwit := []
  PubKeyHashAddrID := 0x47
  ScriptHashAddrID := 0x05
  PrivateKeyID := 0x80
  HDPrivateKeyID := (0x04, 0x35, 0x83, 0x94)
  HDPublicKeyID := [0x04, 0x35, 0x87, 0xcf]
  HDCoinType := 28

/-- `ZcoinTestNetParams` from src/chaincfg/params.go. -/
def ZcoinTestNetParams : Params where
  Name := [120, 122, 99, 116, 101, 115, 116]
  Net := 2
  Bech32HRPSegwit := []
  PubKeyHashAddrID := 0x4a
  ScriptHashAddrID := 0xc4
  PrivateKeyID := 0xef
  HDPrivateKeyID := (0x04, 0x35, 0x83, 0x94)
  HDPublicKeyID := [0x04, 0x35, 0x87, 0xcf]
  HDCoinType := 65536

/-- Package initialization (`init` in src/chaincfg/params.go) registers the
two default networks. -/
def initState : RegState :=
  (Register (Register RegState.empty ZcoinParams).1 ZcoinTestNetParams).1

/-- `RegressionNetParams` from src/chaincfg/params.go (fields the registry
reads; the net magic abstract as above). -/
def RegressionNetParams : Params where
  Name := [114, 101, 103, 116, 101, 115, 116]
  Net := 3
  Bech32HRPSegwit := [116, 120, 122, 99]
  PubKeyHashAddrID := 0x6f
  ScriptHashAddrID := 0xc4
  PrivateKeyID := 0xef
  HDPrivateKeyID := (0x04, 0x35, 0x83, 0x94)
  HDPublicKeyID := [0x04, 0x35, 0x87, 0xcf]
  HDCoinType := 1

end Chaincfg

namespace Ffldb

/-- A byte string, as a list of byte values. -/
abbrev Bytes := List Nat

/-- The modulus of a 32-bit word. -/
def wordMod : Nat := 4294967296

/-- Modelled from the spec: the ffldb driver is absent from src.  Per-record
integrity checksum (spec fixes no algorithm: "any fixed-width checksum"
satisfies the contract); a 32-bit byte sum. -/
def checksum (b : Bytes) : Nat := b.sum % wordMod

/-- Little-endian 4-byte encoding of a 32-bit value. -/
def putUint32 (n : Nat) : Bytes :=
  [n % 256, n / 256 % 256, n / 65536 % 256, n / 16777216 % 256]

/-- Modelled from the spec: `BlockLocation` is `{fileNumber, offset,
length}`, the physical address of a block record inside the flat-file set. -/
structure BlockLocation where
  blockFileNum : Nat
  fileOffset : Nat
  blockLen : Nat
deriving DecidableEq, Repr

/-- Modelled from the spec: the serialized block record `length ‖ checksum ‖
bytes`; the checksum is "a checksum for the record", so it covers the length
field and the payload. -/
def serializeRecord (b : Bytes) : Bytes :=
  putUint32 b.length ++ putUint32 (checksum (putUint32 b.length ++ b)) ++ b

/-- Modelled from the spec: the BlockFileManager state — a numbered sequence
of append-only flat files, a durable watermark per file, the current write
file and the fixed per-file size cap. -/
structure BlockStore where
  files : Nat → Bytes
  syncedLen : Nat → Nat
  writeFileNum : Nat
  maxFileSize : Nat

/-- The bytes of `file` at offset `off`, `len` bytes long. -/
def extract (file : Bytes) (off len : Nat) : Bytes :=
  (file.drop off).take len

/-- Modelled from the spec: `writeBlock(bytes)` appends `length ‖ checksum ‖
bytes` to the current write file, rotating to a new file first if the append
would exceed the cap, and returns the resulting `BlockLocation`. -/
def writeBlock (bs : BlockStore) (b : Bytes) : BlockStore × BlockLocation :=
  let recd := serializeRecord b
  let fn :=
    if (bs.files bs.writeFileNum).length + recd.length > bs.maxFileSize then
      bs.writeFileNum + 1
    else bs.writeFileNum
  ({ bs with
      files := fun n => if n = fn then bs.files fn ++ recd else bs.files n
      writeFileNum := fn },
   { blockFileNum := fn
     fileOffset := (bs.files fn).length
     blockLen := recd.length })

/-- A cause recorded inside the failed-transaction error surfaced by
`Update` (spec §4.1: distinct from application-level errors). -/
inductive TxFailCause
  | appError (code : Nat)
  | execFault
  | storeFailed
  | syncFailed
  | metaCommitFailed
deriving DecidableEq, Repr

/-- Modelled from the spec (§7 error taxonomy): corruption, not-found and
the failed-transaction error, plus the application-level error namespace. -/
inductive DbError
  | app (code : Nat)
  | txFailed (cause : TxFailCause)
  | corruption
  | notFound
  | blockExists
deriving DecidableEq, Repr

/-- Modelled from the spec: `readBlock(loc)` reads the record at `loc`,
recomputes the checksum, and returns the bytes, or a corruption signal if
the checksum does not match. -/
def readBlock (file : Bytes) (loc : BlockLocation) : Except DbError Bytes :=
  let r := extract file loc.fileOffset loc.blockLen
  if r.length = loc.blockLen ∧ 8 ≤ loc.blockLen then
    let lenField := r.take 4
    let ckField := (r.drop 4).take 4
    let payload := r.drop 8
    if ckField = putUint32 (checksum (lenField ++ payload)) then .ok payload
    else .error .corruption
  else .error .corruption

/-- Modelled from the spec: the committed metadata — the hash→location map,
the generic key-value buckets (flattened to one keyspace), and the
best-chain tip. -/
structure Metadata where
  blockIdx : List (Bytes × BlockLocation)
  kv : Bytes → Option Bytes
  bestHash : Bytes
  bestHeight : Nat

/-- Modelled from the spec: the combined store — flat block files plus
committed metadata. -/
structure DB where
  store : BlockStore
  meta : Metadata

/-- Modelled from the spec: blocks are identified by their content hash; the
spec fixes no hash algorithm, so the hash is an injective content
identifier. -/
def blockHash (b : Bytes) : Bytes := b

/-- Association-list lookup in the hash→location map. -/
def idxLookup (m : List (Bytes × BlockLocation)) (h : Bytes) :
    Option BlockLocation :=
  match m with
  | [] => none
  | (k, v) :: rest => if k = h then some v else idxLookup rest h

/-- Modelled from the spec: a write transaction stages zero or more block
appends, ordered metadata mutations (`put k v` as `(k, some v)`, `delete k`
as `(k, none)`), and optionally a new best-chain tip. -/
structure PendingTx where
  pendingBlocks : List Bytes
  metaOps : List (Bytes × Option Bytes)
  newBest : Option (Bytes × Nat)

/-- The empty write transaction. -/
def PendingTx.empty : PendingTx := ⟨[], [], none⟩

/-- Whether a block hash is already committed or staged in this
transaction. -/
def hasBlock (db : DB) (tx : PendingTx) (h : Bytes) : Bool :=
  (idxLookup db.meta.blockIdx h).isSome ||
    tx.pendingBlocks.any (fun b => blockHash b = h)

/-- Modelled from the spec: `StoreBlock` stages a block append inside the
write transaction; a hash already committed or staged is rejected, which
maintains the hash→location bijection (spec §3 invariant 5). -/
def StoreBlock (db : DB) (tx : PendingTx) (b : Bytes) :
    Except DbError PendingTx :=
  if hasBlock db tx (blockHash b) then .error .blockExists
  else .ok { tx with pendingBlocks := tx.pendingBlocks ++ [b] }

/-- One staging operation of a write function. -/
inductive TxOp
  | storeBlockOp (b : Bytes)
  | putMeta (k v : Bytes)
  | deleteMeta (k : Bytes)
  | setBestState (h : Bytes) (height : Nat)
deriving DecidableEq, Repr

/-- Applies one staging operation to the in-flight transaction. -/
def applyOp (db : DB) (tx : PendingTx) : TxOp → Except DbError PendingTx
  | .storeBlockOp b => StoreBlock db tx b
  | .putMeta k v => .ok { tx with metaOps := tx.metaOps ++ [(k, some v)] }
  | .deleteMeta k => .ok { tx with metaOps := tx.metaOps ++ [(k, none)] }
  | .setBestState h height => .ok { tx with newBest := some (h, height) }

/-- Runs a straight-line sequence of staging operations, stopping at the
first failure. -/
def runOps (db : DB) : PendingTx → List TxOp → Except DbError PendingTx
  | tx, [] => .ok tx
  | tx, op :: rest =>
    match applyOp db tx op with
    | .ok tx' => runOps db tx' rest
    | .error e => .error e

/-- Writes the staged blocks to the flat files in order, returning the new
store and the location of each record. -/
def writeBlocks : BlockStore → List Bytes → BlockStore × List BlockLocation
  | bs, [] => (bs, [])
  | bs, b :: rest =>
    let p := writeBlock bs b
    let q := writeBlocks p.1 rest
    (q.1, p.2 :: q.2)

/-- Modelled from the spec: commit step (a) — flush and durably sync the
block files (every file's durable watermark reaches its current length). -/
def syncStore (bs : BlockStore) : BlockStore :=
  { bs with syncedLen := fun n => (bs.files n).length }

/-- Applies the ordered metadata mutations to the key-value map. -/
def kvApply (kv : Bytes → Option Bytes) (ops : List (Bytes × Option Bytes)) :
    Bytes → Option Bytes :=
  ops.foldl (fun m p => fun k => if k = p.1 then p.2 else m k) kv

/-- Modelled from the spec: commit step (b) — write the new best-chain-tip
and hash→location entries into metadata. -/
def applyMeta (m : Metadata) (tx : PendingTx) (locs : List BlockLocation) :
    Metadata :=
  { blockIdx := m.blockIdx ++ (tx.pendingBlocks.map blockHash).zip locs
    kv := kvApply m.kv tx.metaOps
    bestHash := match tx.newBest with | some (h, _) => h | none => m.bestHash
    bestHeight :=
      match tx.newBest with | some (_, ht) => ht | none => m.bestHeight }

/-- A fault injected into the commit protocol: none, a failure of the
durable sync of step (a), or a failure of the atomic metadata commit of
step (c). -/
inductive CommitFault
  | noFault
  | syncFail
  | metaCommitFail
deriving DecidableEq, Repr

/-- The observable steps of the commit protocol, in the order they are
attempted. -/
inductive CommitEvent
  | appendBlocks
  | syncFiles
  | writeMeta
  | commitMeta
deriving DecidableEq, Repr

/-- The outcome of a commit: the resulting store, the returned value, and
the trace of attempted protocol steps. -/
structure CommitResult where
  db : DB
  res : Except DbError Unit
  trace : List CommitEvent

/-- Modelled from the spec (§4.3): commit proceeds in strict order — (a) if
any blocks were staged, append them and durably sync the block files; (b)
write the new best-chain-tip and hash→location entries; (c) atomically
commit the metadata write.  If (a) fails the whole transaction aborts and no
metadata is written; if (c) fails the appended bytes remain on disk but
unreferenced. -/
def commitTx (db : DB) (tx : PendingTx) (fault : CommitFault) : CommitResult :=
  if tx.pendingBlocks.isEmpty then
    if fault = .metaCommitFail then
      { db := db
        res := .error (.txFailed .metaCommitFailed)
        trace := [.writeMeta, .commitMeta] }
    else
      { db := { db with meta := applyMeta db.meta tx [] }
        res := .ok ()
        trace := [.writeMeta, .commitMeta] }
  else
    let p := writeBlocks db.store tx.pendingBlocks
    if fault = .syncFail then
      { db := { db with store := p.1 }
        res := .error (.txFailed .syncFailed)
        trace := [.appendBlocks, .syncFiles] }
    else
      let store2 := syncStore p.1
      if fault = .metaCommitFail then
        { db := { db with store := store2 }
          res := .error (.txFailed .metaCommitFailed)
          trace := [.appendBlocks, .syncFiles, .writeMeta, .commitMeta] }
      else
        { db := { db with store := store2, meta := applyMeta db.meta tx p.2 }
          res := .ok ()
          trace := [.appendBlocks, .syncFiles, .writeMeta, .commitMeta] }

/-- The terminal behaviour of a write function after its staging
operations. -/
inductive WriteOutcome
  | success
  | appError (code : Nat)
  | fault
deriving DecidableEq, Repr

/-- A write function, embedded as a straight-line program: staging
operations followed by a terminal outcome. -/
structure WriteProg where
  ops : List TxOp
  outcome : WriteOutcome

/-- Modelled from the spec (§4.1): `Update` acquires the single write slot,
runs the write function against a mutable transaction view, and commits
atomically on success; any error from the write function, or any fault
during execution, rolls back with no observable side effect, and `Update`
surfaces a failed-transaction error distinct from application-level
errors. -/
def Update (db : DB) (prog : WriteProg) (fault : CommitFault) :
    DB × Except DbError Unit :=
  match runOps db PendingTx.empty prog.ops with
  | .error _ => (db, .error (.txFailed .storeFailed))
  | .ok tx =>
    match prog.outcome with
    | .appError c => (db, .error (.txFailed (.appError c)))
    | .fault => (db, .error (.txFailed .execFault))
    | .success =>
      let cr := commitTx db tx fault
      (cr.db, cr.res)

/-- Metadata read of one key against the committed state. -/
def metaGet (db : DB) (k : Bytes) : Option Bytes := db.meta.kv k

/-- Modelled from the spec: `FetchBlock(hash)` resolves the hash through the
committed hash→location map and reads the record. -/
def FetchBlock (db : DB) (h : Bytes) : Except DbError Bytes :=
  match idxLookup db.meta.blockIdx h with
  | none => .error .notFound
  | some loc => readBlock (db.store.files loc.blockFileNum) loc

/-- Modelled from the spec: `BestState()` returns the committed best-chain
tip hash and height. -/
def BestState (db : DB) : Bytes × Nat := (db.meta.bestHash, db.meta.bestHeight)

/-- Sets one byte of one flat file on disk (a disk corruption event). -/
def corruptByte (db : DB) (fn pos v : Nat) : DB :=
  { db with store :=
      { db.store with files := fun n =>
          if n = fn then (db.store.files fn).set pos v
          else db.store.files n } }

/-- Whether a returned value is the failed-transaction error. -/
def failedTxError : Except DbError Unit → Bool
  | .error (.txFailed _) => true
  | _ => false

/-- Whether a returned value is a bare application-level error. -/
def appLevelError : Except DbError Unit → Bool
  | .error (.app _) => true
  | _ => false

/-- The freshly created database: empty files, empty metadata, a given
per-file size cap. -/
def initDB (cap : Nat) : DB :=
  { store :=
      { files := fun _ => []
        syncedLen := fun _ => 0
        writeFileNum := 0
        maxFileSize := cap }
    meta :=
      { blockIdx := []
        kv := fun _ => none
        bestHash := []
        bestHeight := 0 } }

/-- The states reachable from a fresh database by committed or failed write
transactions. -/
inductive Reachable : DB → Prop
  | init (cap : Nat) : Reachable (initDB cap)
  | step (db : DB) (prog : WriteProg) (fault : CommitFault) :
      Reachable db → Reachable (Update db prog fault).1

/-- The committed-metadata well-formedness invariant: the hash→location map
is a bijection on committed blocks (no hash twice, no location twice) and
every committed location is a whole record lying inside its file. -/
def MetaWF (db : DB) : Prop :=
  (db.meta.blockIdx.map Prod.fst).Nodup ∧
  (db.meta.blockIdx.map Prod.snd).Nodup ∧
  ∀ q ∈ db.meta.blockIdx, 8 ≤ q.2.blockLen ∧
    q.2.fileOffset + q.2.blockLen ≤
      (db.store.files q.2.blockFileNum).length

/-- Write-ahead-of-reference: every hash→location entry the commit added on
top of the pre-state `db0` refers to bytes that are durable (below the
per-file durable watermark) and equal to the record of the block the entry
names. -/
def NewEntriesDurable (db0 : DB) (cr : CommitResult) : Prop :=
  ∃ newEntries, cr.db.meta.blockIdx = db0.meta.blockIdx ++ newEntries ∧
    ∀ q ∈ newEntries,
      q.2.fileOffset + q.2.blockLen ≤ cr.db.store.syncedLen q.2.blockFileNum ∧
      extract (cr.db.store.files q.2.blockFileNum) q.2.fileOffset q.2.blockLen
        = serializeRecord q.1

/-- A fresh block store with a 100-byte file cap, used to evaluate the
model on concrete inputs. -/
def sampleStore : BlockStore :=
  { files := fun _ => []
    syncedLen := fun _ => 0
    writeFileNum := 0
    maxFileSize := 100 }

/-- Whether the write function fails: one of its staging operations errors,
or it ends in an application error or a fault. -/
def writeFnFails (db : DB) (prog : WriteProg) : Bool :=
  match runOps db PendingTx.empty prog.ops with
  | .error _ => true
  | .ok _ =>
    match prog.outcome with
    | .success => false
    | _ => true

end Ffldb

namespace Indexers

/-- A byte string, as a list of byte values. -/
abbrev Bytes := List Nat

/-- Modelled from the spec: the indexer packages are absent from src.  A
transaction as the indexers see it: its hash, its position inside the
serialized block, and the addresses it credits or debits. -/
structure IdxTx where
  txid : Bytes
  txOffset : Nat
  txLen : Nat
  addrs : List Bytes
deriving DecidableEq, Repr

/-- Modelled from the spec: a connected or disconnected block, as the
indexers see it — its hash and its transactions. -/
structure IdxBlock where
  hash : Bytes
  txs : List IdxTx
deriving DecidableEq, Repr

/-- Modelled from the spec: the transaction-by-hash index maps each
transaction hash to the location (block hash, byte offset, length) of its
serialized form. -/
def connectHashIdx (s : Bytes → Option (Bytes × Nat × Nat)) (blk : IdxBlock) :
    Bytes → Option (Bytes × Nat × Nat) :=
  blk.txs.foldl
    (fun m t => fun k =>
      if k = t.txid then some (blk.hash, t.txOffset, t.txLen) else m k) s

/-- Modelled from the spec: disconnecting a block from the
transaction-by-hash index removes the entries of the block's
transactions. -/
def disconnectHashIdx (s : Bytes → Option (Bytes × Nat × Nat))
    (blk : IdxBlock) : Bytes → Option (Bytes × Nat × Nat) :=
  blk.txs.foldr (fun t m => fun k => if k = t.txid then none else m k) s

/-- The transaction entries a block contributes for one address, in block
order. -/
def addrEntriesOf (blk : IdxBlock) (a : Bytes) : List Bytes :=
  (blk.txs.filter (fun t => decide (a ∈ t.addrs))).map (fun t => t.txid)

/-- Modelled from the spec: the transaction-by-address index maps each
address to an ordered sequence of transaction locations, keyed by a
monotonic sequence number; connecting a block appends the block's entries
for each address. -/
def connectAddrIdx (s : Bytes → List Bytes) (blk : IdxBlock) :
    Bytes → List Bytes :=
  fun a => s a ++ addrEntriesOf blk a

/-- Modelled from the spec: disconnecting a block from the
transaction-by-address index removes the entries the block appended, the
highest sequence numbers of each touched address. -/
def disconnectAddrIdx (s : Bytes → List Bytes) (blk : IdxBlock) :
    Bytes → List Bytes :=
  fun a => (s a).take ((s a).length - (addrEntriesOf blk a).length)

/-- The stored content of the two required indexers. -/
structure IndexState where
  txIndex : Bytes → Option (Bytes × Nat × Nat)
  addrIndex : Bytes → List Bytes

/-- The empty index content. -/
def IndexState.empty : IndexState :=
  { txIndex := fun _ => none, addrIndex := fun _ => [] }

/-- Modelled from the spec (§4.4): `ConnectBlock` drives the registered
indexers in registration order — the hash index, then the address index
that depends on it. -/
def ConnectBlock (s : IndexState) (blk : IdxBlock) : IndexState :=
  { txIndex := connectHashIdx s.txIndex blk
    addrIndex := connectAddrIdx s.addrIndex blk }

/-- Modelled from the spec (§4.4): `DisconnectBlock` drives the registered
indexers in reverse registration order and exactly reverses the effect of
the matching `ConnectBlock` call. -/
def DisconnectBlock (s : IndexState) (blk : IdxBlock) : IndexState :=
  { txIndex := disconnectHashIdx s.txIndex blk
    addrIndex := disconnectAddrIdx s.addrIndex blk }

/-- Connects a run of blocks in ascending order. -/
def connectList (s : IndexState) (bs : List IdxBlock) : IndexState :=
  bs.foldl ConnectBlock s

/-- Disconnects a run of blocks from the tip downwards (the last block of
the list first). -/
def disconnectList (s : IndexState) (bs : List IdxBlock) : IndexState :=
  bs.foldr (fun b t => DisconnectBlock t b) s

/-- A block whose transactions are new to the index: distinct transaction
hashes, none already present (a confirmed chain never repeats a transaction
hash). -/
def BlockFresh (s : IndexState) (blk : IdxBlock) : Prop :=
  (blk.txs.map IdxTx.txid).Nodup ∧ ∀ t ∈ blk.txs, s.txIndex t.txid = none

/-- Freshness along a run of connected blocks. -/
def FreshChain : IndexState → List IdxBlock → Prop
  | _, [] => True
  | s, blk :: rest => BlockFresh s blk ∧ FreshChain (ConnectBlock s blk) rest

end Indexers

namespace Chaincfg

/-- C8: `Register(params)` returns `ErrDuplicateNet` exactly when a network
with the same `Net` magic is already registered, leaves every registration
map unchanged in that case, and returns nil on success. -/
theorem Register_duplicate_iff (s : RegState) (p : Params) :
    ((Register s p).2 = some ChainErr.ErrDuplicateNet ↔
      s.registeredNets p.Net = true) ∧
    (s.registeredNets p.Net = true → (Register s p).1 = s) ∧
    (s.registeredNets p.Net = false → (Register s p).2 = none) := by
  unfold Register
  by_cases h : s.registeredNets p.Net
  · simp [h]
  · simp [h]

/-- Witness for C8 at concrete inputs: registering `ZcoinParams` into the
initialized state is a duplicate and changes nothing; into the empty state
it succeeds. -/
theorem Register_duplicate_iff_witness :
    (Register initState ZcoinParams).2 = some ChainErr.ErrDuplicateNet ∧
    (Register initState ZcoinParams).1 = initState ∧
    (Register RegState.empty ZcoinParams).2 = none :=
  ⟨(Register_duplicate_iff initState ZcoinParams).1.mpr (by decide),
   (Register_duplicate_iff initState ZcoinParams).2.1 (by decide),
   (Register_duplicate_iff RegState.empty ZcoinParams).2.2 (by decide)⟩

/-- C9: `HDPrivateKeyToPublicKeyID` rejects every id of length other than 4
and every unregistered 4-byte id with `ErrUnknownHDKeyID`; a registered
4-byte id yields the mapped public key id, and `Register` makes the mapping
hold the most recently registered `HDPublicKeyID` for that private key id,
leaving other key ids untouched. -/
theorem HDPrivateKeyToPublicKeyID_spec :
    (∀ (s : RegState) (id : Bytes), id.length ≠ 4 →
      HDPrivateKeyToPublicKeyID s id = .error .ErrUnknownHDKeyID) ∧
    (∀ (s : RegState) (a b c d : Nat), s.hdPrivToPubKeyIDs (a, b, c, d) = none →
      HDPrivateKeyToPublicKeyID s [a, b, c, d] = .error .ErrUnknownHDKeyID) ∧
    (∀ (s : RegState) (a b c d : Nat) (pub : Bytes),
      s.hdPrivToPubKeyIDs (a, b, c, d) = some pub →
      HDPrivateKeyToPublicKeyID s [a, b, c, d] = .ok pub) ∧
    (∀ (s : RegState) (p : Params), (Register s p).2 = none →
      (Register s p).1.hdPrivToPubKeyIDs p.HDPrivateKeyID = some p.HDPublicKeyID) ∧
    (∀ (s : RegState) (p : Params) (k : Nat × Nat × Nat × Nat),
      (Register s p).2 = none → k ≠ p.HDPrivateKeyID →
      (Register s p).1.hdPrivToPubKeyIDs k = s.hdPrivToPubKeyIDs k) := by
  refine ⟨?_, ?_, ?_, ?_, ?_⟩
  · intro s id h
    match id with
    | [] => rfl
    | [_] => rfl
    | [_, _] => rfl
    | [_, _, _] => rfl
    | [_, _, _, _] => simp at h
    | _ :: _ :: _ :: _ :: _ :: _ => rfl
  · intro s a b c d h
    simp [HDPrivateKeyToPublicKeyID, h]
  · intro s a b c d pub h
    simp [HDPrivateKeyToPublicKeyID, h]
  · intro s p h
    unfold Register at *
    by_cases hg : s.registeredNets p.Net
    · simp [hg] at h
    · simp [hg]
  · intro s p k h hk
    unfold Register at *
    by_cases hg : s.registeredNets p.Net
    · simp [hg] at h
    · simp [hg, hk]

/-- Witness for C9 at concrete inputs: the initialized registry maps the
default HD private key id to the default public key id, and rejects a
3-byte id. -/
theorem HDPrivateKeyToPublicKeyID_spec_witness :
    HDPrivateKeyToPublicKeyID initState [0x04, 0x35, 0x83, 0x94] =
      .ok [0x04, 0x35, 0x87, 0xcf] ∧
    HDPrivateKeyToPublicKeyID initState [1, 2, 3] =
      .error .ErrUnknownHDKeyID :=
  ⟨HDPrivateKeyToPublicKeyID_spec.2.2.1 initState 0x04 0x35 0x83 0x94
      [0x04, 0x35, 0x87, 0xcf] (by decide),
   HDPrivateKeyToPublicKeyID_spec.1 initState [1, 2, 3] (by decide)⟩

/-- C10: after a successful `Register p`, the pubkey-hash and script-hash
address id bytes of `p` are recognized, and every string whose ASCII
lowercasing is `p.Bech32HRPSegwit ++ "1"` is recognized as a segwit prefix
(case-insensitively). -/
theorem Register_lookup_spec (s : RegState) (p : Params)
    (h : (Register s p).2 = none) :
    IsPubKeyHashAddrID (Register s p).1 p.PubKeyHashAddrID = true ∧
    IsScriptHashAddrID (Register s p).1 p.ScriptHashAddrID = true ∧
    ∀ q : Bytes, toLowerBytes q = p.Bech32HRPSegwit ++ [oneByte] →
      IsBech32SegwitPrefix (Register s p).1 q = true := by
  unfold Register at *
  by_cases hg : s.registeredNets p.Net
  · simp [hg] at h
  · refine ⟨?_, ?_, ?_⟩
    · simp [hg, IsPubKeyHashAddrID]
    · simp [hg, IsScriptHashAddrID]
    · intro q hq
      simp [hg, IsBech32SegwitPrefix, hq]

/-- Witness for C10 at concrete inputs: registering the regression network
into the empty state makes its address ids and its (uppercased) segwit
prefix recognized. -/
theorem Register_lookup_spec_witness :
    IsPubKeyHashAddrID (Register RegState.empty RegressionNetParams).1 0x6f
      = true ∧
    IsScriptHashAddrID (Register RegState.empty RegressionNetParams).1 0xc4
      = true ∧
    IsBech32SegwitPrefix (Register RegState.empty RegressionNetParams).1
      [84, 88, 90, 67, 49] = true :=
  ⟨(Register_lookup_spec RegState.empty RegressionNetParams (by decide)).1,
   (Register_lookup_spec RegState.empty RegressionNetParams (by decide)).2.1,
   (Register_lookup_spec RegState.empty RegressionNetParams (by decide)).2.2
      [84, 88, 90, 67, 49] (by decide)⟩

end Chaincfg

namespace Ffldb

theorem extract_append_self (l r : Bytes) :
    extract (l ++ r) l.length r.length = r := by
  unfold extract
  rw [List.drop_left]
  exact List.take_length r

/-- C1: a write transaction whose write function fails, by returning an
error, by a failing staging operation, or by a fault during execution, is
rolled back: the database state is exactly the pre-transaction state, so no
key, value or block byte it touched is visible to any subsequent read
transaction; `Update` returns the failed-transaction error and never a bare
application-level error. -/
theorem Update_failure_atomic (db : DB) (prog : WriteProg)
    (fault : CommitFault) (hfail : writeFnFails db prog = true) :
    (Update db prog fault).1 = db ∧
    failedTxError (Update db prog fault).2 = true ∧
    appLevelError (Update db prog fault).2 = false := by
  unfold writeFnFails at hfail
  unfold Update
  cases hro : runOps db PendingTx.empty prog.ops with
  | error e => exact ⟨rfl, rfl, rfl⟩
  | ok tx =>
    rw [hro] at hfail
    cases ho : prog.outcome with
    | success => rw [ho] at hfail; simp at hfail
    | appError c => exact ⟨rfl, rfl, rfl⟩
    | fault => exact ⟨rfl, rfl, rfl⟩

/-- Witness for C1 at concrete inputs: a transaction that stages a put and a
block but ends in an application error leaves the fresh database unchanged
and surfaces the failed-transaction error. -/
theorem Update_failure_atomic_witness :
    (Update (initDB 1000)
        ⟨[.putMeta [1] [2], .storeBlockOp [5, 6, 7]], .appError 7⟩
        .noFault).1 = initDB 1000 ∧
    failedTxError
      (Update (initDB 1000)
        ⟨[.putMeta [1] [2], .storeBlockOp [5, 6, 7]], .appError 7⟩
        .noFault).2 = true ∧
    appLevelError
      (Update (initDB 1000)
        ⟨[.putMeta [1] [2], .storeBlockOp [5, 6, 7]], .appError 7⟩
        .noFault).2 = false :=
  Update_failure_atomic (initDB 1000)
    ⟨[.putMeta [1] [2], .storeBlockOp [5, 6, 7]], .appError 7⟩
    .noFault (by decide)

/-- C6: `writeBlock` appends the record `length ‖ checksum ‖ bytes` to the
current write file, rotating to a new file first when the append would
exceed the per-file cap, touches no other file, and the returned
`BlockLocation` addresses exactly the record just written. -/
theorem writeBlock_spec (bs : BlockStore) (b : Bytes) :
    ((writeBlock bs b).2.blockFileNum =
      if (bs.files bs.writeFileNum).length + (serializeRecord b).length >
          bs.maxFileSize
        then bs.writeFileNum + 1 else bs.writeFileNum) ∧
    (writeBlock bs b).1.writeFileNum = (writeBlock bs b).2.blockFileNum ∧
    (writeBlock bs b).1.files (writeBlock bs b).2.blockFileNum =
      bs.files (writeBlock bs b).2.blockFileNum ++ serializeRecord b ∧
    (∀ n, n ≠ (writeBlock bs b).2.blockFileNum →
      (writeBlock bs b).1.files n = bs.files n) ∧
    (writeBlock bs b).2.fileOffset =
      (bs.files (writeBlock bs b).2.blockFileNum).length ∧
    (writeBlock bs b).2.blockLen = (serializeRecord b).length ∧
    extract ((writeBlock bs b).1.files (writeBlock bs b).2.blockFileNum)
      (writeBlock bs b).2.fileOffset (writeBlock bs b).2.blockLen =
      serializeRecord b := by
  unfold writeBlock
  refine ⟨rfl, rfl, by simp, ?_, rfl, rfl, ?_⟩
  · intro n hn
    simp only at hn ⊢
    rw [if_neg hn]
  · simp only [if_pos rfl]
    exact extract_append_self _ _

end Ffldb

namespace Ffldb

/-- Witness for C6 at concrete inputs: writing a 3-byte block into the fresh
store leaves file 1 untouched, places the record at the current file length,
and the returned location addresses exactly the record. -/
theorem writeBlock_spec_witness :
    (writeBlock sampleStore [5, 6, 7]).1.files 1 = sampleStore.files 1 ∧
    (writeBlock sampleStore [5, 6, 7]).2.fileOffset =
      (sampleStore.files
        (writeBlock sampleStore [5, 6, 7]).2.blockFileNum).length ∧
    extract
      ((writeBlock sampleStore [5, 6, 7]).1.files
        (writeBlock sampleStore [5, 6, 7]).2.blockFileNum)
      (writeBlock sampleStore [5, 6, 7]).2.fileOffset
      (writeBlock sampleStore [5, 6, 7]).2.blockLen =
      serializeRecord [5, 6, 7] :=
  ⟨(writeBlock_spec sampleStore [5, 6, 7]).2.2.2.1 1 (by decide),
   (writeBlock_spec sampleStore [5, 6, 7]).2.2.2.2.1,
   (writeBlock_spec sampleStore [5, 6, 7]).2.2.2.2.2.2⟩

theorem putUint32_length (n : Nat) : (putUint32 n).length = 4 := rfl

theorem serializeRecord_length (b : Bytes) :
    (serializeRecord b).length = b.length + 8 := by
  simp [serializeRecord, putUint32]

theorem extract_stable {l1 l2 : Bytes} (h : l1 <+: l2) {off len : Nat}
    (hb : off + len ≤ l1.length) : extract l2 off len = extract l1 off len := by
  obtain ⟨t, rfl⟩ := h
  unfold extract
  rw [List.drop_append_of_le_length (by omega),
    List.take_append_of_le_length (by simp; omega)]

theorem writeBlock_out (bs : BlockStore) (b : Bytes) :
    (∀ n, bs.files n <+: (writeBlock bs b).1.files n) ∧
    (writeBlock bs b).2.blockLen = (serializeRecord b).length ∧
    (bs.files (writeBlock bs b).2.blockFileNum).length ≤
      (writeBlock bs b).2.fileOffset ∧
    (writeBlock bs b).2.fileOffset + (writeBlock bs b).2.blockLen =
      ((writeBlock bs b).1.files (writeBlock bs b).2.blockFileNum).length ∧
    extract ((writeBlock bs b).1.files (writeBlock bs b).2.blockFileNum)
      (writeBlock bs b).2.fileOffset (writeBlock bs b).2.blockLen =
      serializeRecord b := by
  have hfiles : ∀ n, (writeBlock bs b).1.files n =
      if n = (writeBlock bs b).2.blockFileNum
      then bs.files (writeBlock bs b).2.blockFileNum ++ serializeRecord b
      else bs.files n := fun n => rfl
  refine ⟨?_, rfl, Nat.le_refl _, ?_, ?_⟩
  · intro n
    rw [hfiles n]
    by_cases hn : n = (writeBlock bs b).2.blockFileNum
    · rw [if_pos hn, hn]
      exact ⟨serializeRecord b, rfl⟩
    · rw [if_neg hn]
  · rw [hfiles, if_pos rfl, List.length_append]
    rfl
  · rw [hfiles, if_pos rfl]
    exact extract_append_self _ _

theorem forall₂_mem_right {α β : Type} {R : α → β → Prop} {as : List α}
    {bs : List β} (h : List.Forall₂ R as bs) :
    ∀ y ∈ bs, ∃ x ∈ as, R x y := by
  induction h with
  | nil => simp
  | cons hR _ ih =>
    intro y hy
    rcases List.mem_cons.mp hy with hy | hy
    · exact ⟨_, List.mem_cons_self _ _, hy ▸ hR⟩
    · obtain ⟨x, hx, hxy⟩ := ih y hy
      exact ⟨x, List.mem_cons_of_mem _ hx, hxy⟩

theorem writeBlocks_sound (blocks : List Bytes) : ∀ bs : BlockStore,
    (∀ n, bs.files n <+: (writeBlocks bs blocks).1.files n) ∧
    List.Forall₂ (fun b loc =>
      loc.blockLen = (serializeRecord b).length ∧
      (bs.files loc.blockFileNum).length ≤ loc.fileOffset ∧
      loc.fileOffset + loc.blockLen ≤
        ((writeBlocks bs blocks).1.files loc.blockFileNum).length ∧
      extract ((writeBlocks bs blocks).1.files loc.blockFileNum)
        loc.fileOffset loc.blockLen = serializeRecord b)
      blocks (writeBlocks bs blocks).2 ∧
    List.Pairwise (fun l1 l2 => l1.blockFileNum = l2.blockFileNum →
      l1.fileOffset + l1.blockLen ≤ l2.fileOffset)
      (writeBlocks bs blocks).2 := by
  induction blocks with
  | nil =>
    intro bs
    exact ⟨fun n => ⟨[], by simp [writeBlocks]⟩, by simp [writeBlocks],
      by simp [writeBlocks]⟩
  | cons b rest ih =>
    intro bs
    obtain ⟨grow0, hlen0, hoff0, hend0, hex0⟩ := writeBlock_out bs b
    obtain ⟨grow1, hf2, hpw⟩ := ih (writeBlock bs b).1
    have hstep : writeBlocks bs (b :: rest) =
        ((writeBlocks (writeBlock bs b).1 rest).1,
          (writeBlock bs b).2 :: (writeBlocks (writeBlock bs b).1 rest).2) :=
      rfl
    rw [hstep]
    refine ⟨fun n => (grow0 n).trans (grow1 n), ?_, ?_⟩
    · refine List.Forall₂.cons ⟨hlen0, hoff0, ?_, ?_⟩ ?_
      · calc (writeBlock bs b).2.fileOffset + (writeBlock bs b).2.blockLen
            = ((writeBlock bs b).1.files
                (writeBlock bs b).2.blockFileNum).length := hend0
          _ ≤ _ := (grow1 _).length_le
      · rw [extract_stable (grow1 _) (Nat.le_of_eq hend0)]
        exact hex0
      · refine hf2.imp ?_
        intro x loc hx
        exact ⟨hx.1, Nat.le_trans (grow0 _).length_le hx.2.1, hx.2.2⟩
    · refine List.Pairwise.cons ?_ hpw
      intro l' hl' hfn
      obtain ⟨b', _, hrel⟩ := forall₂_mem_right hf2 l' hl'
      calc (writeBlock bs b).2.fileOffset + (writeBlock bs b).2.blockLen
          = ((writeBlock bs b).1.files
              (writeBlock bs b).2.blockFileNum).length := hend0
        _ = ((writeBlock bs b).1.files l'.blockFileNum).length := by rw [hfn]
        _ ≤ l'.fileOffset := hrel.2.1

end Ffldb

namespace Ffldb

theorem serializeRecord_take4 (b : Bytes) :
    (serializeRecord b).take 4 = putUint32 b.length := by
  simp [serializeRecord, putUint32]

theorem serializeRecord_drop4_take4 (b : Bytes) :
    ((serializeRecord b).drop 4).take 4 =
      putUint32 (checksum (putUint32 b.length ++ b)) := by
  simp [serializeRecord, putUint32]

theorem serializeRecord_drop8 (b : Bytes) : (serializeRecord b).drop 8 = b := by
  simp [serializeRecord, putUint32]

theorem readBlock_record (file : Bytes) (loc : BlockLocation) (b : Bytes)
    (hex : extract file loc.fileOffset loc.blockLen = serializeRecord b)
    (hlen : loc.blockLen = (serializeRecord b).length) :
    readBlock file loc = .ok b := by
  unfold readBlock
  rw [hex]
  rw [if_pos ⟨hlen.symm, by rw [hlen, serializeRecord_length]; omega⟩]
  rw [serializeRecord_take4, serializeRecord_drop4_take4, serializeRecord_drop8]
  rw [if_pos rfl]

theorem idxLookup_append_none {m1 m2 : List (Bytes × BlockLocation)}
    {k : Bytes} (h : idxLookup m1 k = none) :
    idxLookup (m1 ++ m2) k = idxLookup m2 k := by
  induction m1 with
  | nil => rfl
  | cons p rest ih =>
    obtain ⟨k1, v1⟩ := p
    by_cases hk : k1 = k
    · simp [idxLookup, hk] at h
    · simp only [idxLookup, List.cons_append, if_neg hk] at h ⊢
      exact ih h

theorem idxLookup_eq_none {m : List (Bytes × BlockLocation)} {k : Bytes} :
    idxLookup m k = none ↔ k ∉ m.map Prod.fst := by
  induction m with
  | nil => simp [idxLookup]
  | cons p rest ih =>
    obtain ⟨k1, v1⟩ := p
    by_cases hk : k1 = k
    · simp [idxLookup, hk]
    · simp [idxLookup, hk, ih, Ne.symm hk]

theorem idxLookup_zip_mem {R : Bytes → BlockLocation → Prop}
    {pbs : List Bytes} {locs : List BlockLocation}
    (h : List.Forall₂ R pbs locs) (hnd : (pbs.map blockHash).Nodup) :
    ∀ {b : Bytes}, b ∈ pbs →
      ∃ loc, idxLookup ((pbs.map blockHash).zip locs) (blockHash b) = some loc ∧
        R b loc := by
  induction h with
  | nil => intro b hb; simp at hb
  | cons hR hrest ih =>
    intro b hb
    rename_i a l as ls
    rcases List.mem_cons.mp hb with hb | hb
    · subst hb
      exact ⟨l, by simp [idxLookup], hR⟩
    · have hne : blockHash a ≠ blockHash b := by
        intro hcontra
        have : blockHash b ∈ as.map blockHash := List.mem_map_of_mem _ hb
        rw [← hcontra] at this
        exact (List.nodup_cons.mp (by simpa using hnd)).1 this
      obtain ⟨loc, hlk, hRb⟩ := ih (List.nodup_cons.mp (by simpa using hnd)).2 hb
      exact ⟨loc, by simp only [List.map_cons, List.zip_cons_cons, idxLookup,
        if_neg hne]; exact hlk, hRb⟩

end Ffldb

namespace Ffldb

theorem commitTx_noFault_nonempty (db : DB) (tx : PendingTx)
    (hne : tx.pendingBlocks ≠ []) :
    commitTx db tx .noFault =
      { db := { db with
          store := syncStore (writeBlocks db.store tx.pendingBlocks).1
          meta := applyMeta db.meta tx (writeBlocks db.store tx.pendingBlocks).2 }
        res := .ok ()
        trace := [.appendBlocks, .syncFiles, .writeMeta, .commitMeta] } := by
  have h1 : tx.pendingBlocks.isEmpty = false := by
    cases h : tx.pendingBlocks
    · exact absurd h hne
    · rfl
  unfold commitTx
  rw [h1]
  simp

theorem commitTx_syncFail_nonempty (db : DB) (tx : PendingTx)
    (hne : tx.pendingBlocks ≠ []) :
    commitTx db tx .syncFail =
      { db := { db with store := (writeBlocks db.store tx.pendingBlocks).1 }
        res := .error (.txFailed .syncFailed)
        trace := [.appendBlocks, .syncFiles] } := by
  have h1 : tx.pendingBlocks.isEmpty = false := by
    cases h : tx.pendingBlocks
    · exact absurd h hne
    · rfl
  unfold commitTx
  rw [h1]
  simp

theorem commitTx_metaFail_nonempty (db : DB) (tx : PendingTx)
    (hne : tx.pendingBlocks ≠ []) :
    commitTx db tx .metaCommitFail =
      { db := { db with
          store := syncStore (writeBlocks db.store tx.pendingBlocks).1 }
        res := .error (.txFailed .metaCommitFailed)
        trace := [.appendBlocks, .syncFiles, .writeMeta, .commitMeta] } := by
  have h1 : tx.pendingBlocks.isEmpty = false := by
    cases h : tx.pendingBlocks
    · exact absurd h hne
    · rfl
  unfold commitTx
  rw [h1]
  simp

theorem commitTx_empty_ok (db : DB) (tx : PendingTx) (fault : CommitFault)
    (he : tx.pendingBlocks = []) (hf : fault ≠ .metaCommitFail) :
    commitTx db tx fault =
      { db := { db with meta := applyMeta db.meta tx [] }
        res := .ok ()
        trace := [.writeMeta, .commitMeta] } := by
  have h1 : tx.pendingBlocks.isEmpty = true := by rw [he]; rfl
  unfold commitTx
  rw [h1]
  simp [hf]

theorem commitTx_empty_metaFail (db : DB) (tx : PendingTx)
    (he : tx.pendingBlocks = []) :
    commitTx db tx .metaCommitFail =
      { db := db
        res := .error (.txFailed .metaCommitFailed)
        trace := [.writeMeta, .commitMeta] } := by
  have h1 : tx.pendingBlocks.isEmpty = true := by rw [he]; rfl
  unfold commitTx
  rw [h1]
  simp

/-- C2: every block committed through `StoreBlock` within a successfully
committed write transaction is returned byte-identical by a subsequent
`FetchBlock` of its hash.  The hypotheses state that the block was staged by
`StoreBlock` in this transaction: staged hashes are distinct and not yet
committed, exactly what the `StoreBlock` duplicate check enforces. -/
theorem storeBlock_fetchBlock_roundtrip (db : DB) (tx : PendingTx)
    (b : Bytes) (hb : b ∈ tx.pendingBlocks)
    (hnd : (tx.pendingBlocks.map blockHash).Nodup)
    (hfresh : ∀ b' ∈ tx.pendingBlocks,
      idxLookup db.meta.blockIdx (blockHash b') = none)
    (_hok : (commitTx db tx .noFault).res = .ok ()) :
    FetchBlock (commitTx db tx .noFault).db (blockHash b) = .ok b := by
  have hne : tx.pendingBlocks ≠ [] := List.ne_nil_of_mem hb
  rw [commitTx_noFault_nonempty db tx hne]
  show FetchBlock
    { db with
      store := syncStore (writeBlocks db.store tx.pendingBlocks).1
      meta := applyMeta db.meta tx (writeBlocks db.store tx.pendingBlocks).2 }
    (blockHash b) = .ok b
  unfold FetchBlock
  have hidx : (applyMeta db.meta tx
      (writeBlocks db.store tx.pendingBlocks).2).blockIdx =
      db.meta.blockIdx ++ (tx.pendingBlocks.map blockHash).zip
        (writeBlocks db.store tx.pendingBlocks).2 := rfl
  rw [hidx, idxLookup_append_none (hfresh b hb)]
  obtain ⟨loc, hlk, hrel⟩ :=
    idxLookup_zip_mem (writeBlocks_sound tx.pendingBlocks db.store).2.1 hnd hb
  rw [hlk]
  exact readBlock_record _ _ _ hrel.2.2.2 hrel.1

/-- Witness for C2 at concrete inputs: committing block `[5,6,7]` into the
fresh database and fetching it back returns the same bytes. -/
theorem storeBlock_fetchBlock_roundtrip_witness :
    FetchBlock (commitTx (initDB 1000) ⟨[[5, 6, 7]], [], none⟩ .noFault).db
      (blockHash [5, 6, 7]) = .ok [5, 6, 7] :=
  storeBlock_fetchBlock_roundtrip (initDB 1000) ⟨[[5, 6, 7]], [], none⟩
    [5, 6, 7] (by decide) (by decide) (by decide) rfl

end Ffldb

namespace Ffldb

theorem zip_map_mem_rel {R : Bytes → BlockLocation → Prop}
    {pbs : List Bytes} {locs : List BlockLocation}
    (h : List.Forall₂ R pbs locs) :
    ∀ q ∈ (pbs.map blockHash).zip locs, ∃ a, q.1 = blockHash a ∧ R a q.2 := by
  induction h with
  | nil => simp
  | cons hR _ ih =>
    intro q hq
    rw [List.map_cons, List.zip_cons_cons] at hq
    rcases List.mem_cons.mp hq with hq | hq
    · subst hq
      exact ⟨_, rfl, hR⟩
    · exact ih q hq

/-- C3: commit performs its steps in strict order — when blocks were staged
the trace is append, durable sync, metadata write, metadata commit, and with
no staged blocks the sync step is skipped; if the durable sync of step (a)
fails, the transaction aborts with the failed-transaction error, no metadata
is written, and no metadata step is even attempted; and on success every
hash→location entry the commit added references bytes that are durable and
equal to the named block's record — metadata referencing a location is never
committed before the bytes there are durable. -/
theorem commitTx_protocol (db : DB) (tx : PendingTx) (fault : CommitFault) :
    (tx.pendingBlocks ≠ [] → fault ≠ .syncFail →
      (commitTx db tx fault).trace =
        [.appendBlocks, .syncFiles, .writeMeta, .commitMeta]) ∧
    (tx.pendingBlocks = [] →
      (commitTx db tx fault).trace = [.writeMeta, .commitMeta]) ∧
    (tx.pendingBlocks ≠ [] → fault = .syncFail →
      (commitTx db tx fault).trace = [.appendBlocks, .syncFiles] ∧
      (commitTx db tx fault).db.meta = db.meta ∧
      (commitTx db tx fault).res = .error (.txFailed .syncFailed)) ∧
    ((commitTx db tx fault).res = .ok () →
      NewEntriesDurable db (commitTx db tx fault)) := by
  refine ⟨?_, ?_, ?_, ?_⟩
  · intro hne hf
    cases fault with
    | noFault => rw [commitTx_noFault_nonempty db tx hne]
    | syncFail => exact absurd rfl hf
    | metaCommitFail => rw [commitTx_metaFail_nonempty db tx hne]
  · intro he
    by_cases hf : fault = .metaCommitFail
    · subst hf
      rw [commitTx_empty_metaFail db tx he]
    · rw [commitTx_empty_ok db tx fault he hf]
  · intro hne hfs
    subst hfs
    rw [commitTx_syncFail_nonempty db tx hne]
    exact ⟨rfl, rfl, rfl⟩
  · intro hok
    by_cases he : tx.pendingBlocks = []
    · by_cases hf : fault = .metaCommitFail
      · subst hf
        rw [commitTx_empty_metaFail db tx he] at hok
        simp at hok
      · refine ⟨[], ?_, by simp⟩
        rw [commitTx_empty_ok db tx fault he hf]
        show (applyMeta db.meta tx []).blockIdx = db.meta.blockIdx ++ []
        simp [applyMeta]
    · cases fault with
      | syncFail =>
        rw [commitTx_syncFail_nonempty db tx he] at hok
        simp at hok
      | metaCommitFail =>
        rw [commitTx_metaFail_nonempty db tx he] at hok
        simp at hok
      | noFault =>
        rw [commitTx_noFault_nonempty db tx he]
        refine ⟨(tx.pendingBlocks.map blockHash).zip
          (writeBlocks db.store tx.pendingBlocks).2, rfl, ?_⟩
        intro q hq
        obtain ⟨a, hq1, hrel⟩ :=
          zip_map_mem_rel (writeBlocks_sound tx.pendingBlocks db.store).2.1 q hq
        constructor
        · show q.2.fileOffset + q.2.blockLen ≤
            ((writeBlocks db.store tx.pendingBlocks).1.files
              q.2.blockFileNum).length
          exact hrel.2.2.1
        · have hsr : serializeRecord q.1 = serializeRecord a := by rw [hq1]; rfl
          show extract ((writeBlocks db.store tx.pendingBlocks).1.files
              q.2.blockFileNum) q.2.fileOffset q.2.blockLen = serializeRecord q.1
          rw [hsr]
          exact hrel.2.2.2

/-- Witness for C3 at concrete inputs: committing one staged block yields
the full ordered trace with durable new entries; an empty transaction skips
the sync step; a sync failure aborts with no metadata written. -/
theorem commitTx_protocol_witness :
    (commitTx (initDB 1000) ⟨[[5, 6, 7]], [], none⟩ .noFault).trace =
      [.appendBlocks, .syncFiles, .writeMeta, .commitMeta] ∧
    (commitTx (initDB 1000) ⟨[], [], none⟩ .noFault).trace =
      [.writeMeta, .commitMeta] ∧
    (commitTx (initDB 1000) ⟨[[5, 6, 7]], [], none⟩ .syncFail).db.meta =
      (initDB 1000).meta ∧
    NewEntriesDurable (initDB 1000)
      (commitTx (initDB 1000) ⟨[[5, 6, 7]], [], none⟩ .noFault) :=
  ⟨(commitTx_protocol (initDB 1000) ⟨[[5, 6, 7]], [], none⟩ .noFault).1
      (by decide) (by decide),
   (commitTx_protocol (initDB 1000) ⟨[], [], none⟩ .noFault).2.1 rfl,
   ((commitTx_protocol (initDB 1000) ⟨[[5, 6, 7]], [], none⟩ .syncFail).2.2.1
      (by decide) rfl).2.1,
   (commitTx_protocol (initDB 1000) ⟨[[5, 6, 7]], [], none⟩ .noFault).2.2.2
      rfl⟩

end Ffldb

namespace Ffldb

theorem take4_of_len4 {X Y : Bytes} (h : X.length = 4) : (X ++ Y).take 4 = X := by
  rw [← h, List.take_left]

theorem drop4_of_len4 {X Y : Bytes} (h : X.length = 4) : (X ++ Y).drop 4 = Y := by
  rw [← h, List.drop_left]

theorem sum_set_add (xs : List Nat) (j v : Nat) (hj : j < xs.length) :
    (xs.set j v).sum + xs.getD j 0 = xs.sum + v := by
  induction xs generalizing j with
  | nil => simp at hj
  | cons x t ih =>
    cases j with
    | zero => simp [List.sum_cons]; omega
    | succ j =>
      rw [List.set_cons_succ, List.getD_cons_succ, List.sum_cons, List.sum_cons]
      have := ih j (by simpa using hj)
      omega

theorem getD_set_self (xs : List Nat) (j v : Nat) (hj : j < xs.length) :
    (xs.set j v).getD j 0 = v := by
  induction xs generalizing j with
  | nil => simp at hj
  | cons x t ih =>
    cases j with
    | zero => rfl
    | succ j =>
      rw [List.set_cons_succ, List.getD_cons_succ]
      exact ih j (by simpa using hj)

theorem checksum_set_ne (xs : List Nat) (j v : Nat) (hj : j < xs.length)
    (hv : v < 256) (hx : xs.getD j 0 < 256) (hne : v ≠ xs.getD j 0) :
    checksum (xs.set j v) ≠ checksum xs := by
  intro h
  have hs := sum_set_add xs j v hj
  simp only [checksum, wordMod] at h
  omega

theorem checksum_lt (b : Bytes) : checksum b < wordMod := by
  simp only [checksum, wordMod]
  omega

theorem putUint32_inj {m n : Nat} (hm : m < wordMod) (hn : n < wordMod)
    (h : putUint32 m = putUint32 n) : m = n := by
  simp only [putUint32, List.cons.injEq, and_true] at h
  simp only [wordMod] at hm hn
  omega

theorem set_ne_self (l : List Nat) (j v : Nat) (hj : j < l.length)
    (hne : v ≠ l.getD j 0) : l.set j v ≠ l := by
  intro h
  apply hne
  rw [← getD_set_self l j v hj, h]

theorem mem_putUint32_lt (n : Nat) : ∀ c ∈ putUint32 n, c < 256 := by
  intro c hc
  simp only [putUint32, List.mem_cons, List.not_mem_nil, or_false] at hc
  rcases hc with h | h | h | h <;> subst h <;> omega

theorem getD_lt_of_mem_lt {l : List Nat} (hl : ∀ c ∈ l, c < 256) {j : Nat}
    (hj : j < l.length) : l.getD j 0 < 256 := by
  rw [List.getD_eq_getElem l 0 hj]
  exact hl _ (List.getElem_mem hj)

theorem serializeRecord_mem_lt {b : Bytes} (hb : ∀ c ∈ b, c < 256) :
    ∀ c ∈ serializeRecord b, c < 256 := by
  intro c hc
  unfold serializeRecord at hc
  rcases List.mem_append.mp hc with h | h
  · rcases List.mem_append.mp h with h | h
    · exact mem_putUint32_lt _ c h
    · exact mem_putUint32_lt _ c h
  · exact hb c h

end Ffldb

namespace Ffldb

theorem record_fields (A B Y : Bytes) (hA : A.length = 4) (hB : B.length = 4) :
    ((A ++ B ++ Y).take 4 = A) ∧
    (((A ++ B ++ Y).drop 4).take 4 = B) ∧
    ((A ++ B ++ Y).drop 8 = Y) := by
  refine ⟨?_, ?_, ?_⟩
  · rw [List.take_append_of_le_length (by rw [List.length_append, hA, hB]; omega)]
    exact take4_of_len4 hA
  · rw [List.drop_append_of_le_length (by rw [List.length_append, hA, hB]; omega),
      drop4_of_len4 hA]
    exact take4_of_len4 hB
  · have h8 : (A ++ B).length = 8 := by rw [List.length_append, hA, hB]
    rw [← h8, List.drop_left]

theorem readBlock_set_corrupt (file : Bytes) (loc : BlockLocation) (b : Bytes)
    (i v : Nat) (hbytes : ∀ c ∈ b, c < 256)
    (hi : i < (serializeRecord b).length) (hv : v < 256)
    (hne : v ≠ (serializeRecord b).getD i 0)
    (hex : extract file loc.fileOffset loc.blockLen =
      (serializeRecord b).set i v)
    (hlen : loc.blockLen = (serializeRecord b).length) :
    readBlock file loc = .error .corruption := by
  have hiR : i < b.length + 8 := by rw [← serializeRecord_length b]; exact hi
  have hL4 : (putUint32 b.length).length = 4 := putUint32_length _
  have hC4 : (putUint32 (checksum (putUint32 b.length ++ b))).length = 4 :=
    putUint32_length _
  unfold readBlock
  rw [hex, if_pos ⟨by rw [List.length_set, hlen],
    by rw [hlen, serializeRecord_length]; omega⟩]
  rcases Nat.lt_or_ge i 4 with h4 | h4
  · -- flip inside the length field
    have hgd : (serializeRecord b).getD i 0 = (putUint32 b.length).getD i 0 := by
      unfold serializeRecord
      rw [List.getD_append _ _ _ i
          (by rw [List.length_append, hL4, hC4]; omega),
        List.getD_append _ _ _ i (by rw [hL4]; omega)]
    have hsplit : (serializeRecord b).set i v =
        (putUint32 b.length).set i v ++
          putUint32 (checksum (putUint32 b.length ++ b)) ++ b := by
      unfold serializeRecord
      rw [List.set_append, if_pos (by rw [List.length_append, hL4, hC4]; omega),
        List.set_append, if_pos (by rw [hL4]; omega)]
    obtain ⟨hf1, hf2, hf3⟩ := record_fields ((putUint32 b.length).set i v)
      (putUint32 (checksum (putUint32 b.length ++ b))) b
      (by rw [List.length_set, hL4]) hC4
    rw [hsplit, hf1, hf2, hf3, if_neg]
    intro hcontra
    have hsetLb : (putUint32 b.length).set i v ++ b =
        (putUint32 b.length ++ b).set i v := by
      rw [List.set_append, if_pos (by rw [hL4]; omega)]
    have hgdLb : (putUint32 b.length ++ b).getD i 0 =
        (putUint32 b.length).getD i 0 :=
      List.getD_append _ _ _ i (by rw [hL4]; omega)
    have hckne : checksum ((putUint32 b.length ++ b).set i v) ≠
        checksum (putUint32 b.length ++ b) := by
      refine checksum_set_ne _ i v
        (by rw [List.length_append, hL4]; omega) hv ?_ ?_
      · rw [hgdLb]
        exact getD_lt_of_mem_lt (mem_putUint32_lt _) (by rw [hL4]; omega)
      · rw [hgdLb, ← hgd]
        exact hne
    apply hckne
    rw [← hsetLb]
    exact (putUint32_inj (checksum_lt _) (checksum_lt _) hcontra).symm
  · rcases Nat.lt_or_ge i 8 with h8 | h8
    · -- flip inside the checksum field
      have hgd : (serializeRecord b).getD i 0 =
          (putUint32 (checksum (putUint32 b.length ++ b))).getD (i - 4) 0 := by
        unfold serializeRecord
        rw [List.getD_append _ _ _ i
            (by rw [List.length_append, hL4, hC4]; omega),
          List.getD_append_right _ _ _ i (by rw [hL4]; omega), hL4]
      have hsplit : (serializeRecord b).set i v =
          putUint32 b.length ++
            (putUint32 (checksum (putUint32 b.length ++ b))).set (i - 4) v ++
            b := by
        unfold serializeRecord
        rw [List.set_append,
          if_pos (by rw [List.length_append, hL4, hC4]; omega),
          List.set_append, if_neg (by rw [hL4]; omega), hL4]
      obtain ⟨hf1, hf2, hf3⟩ := record_fields (putUint32 b.length)
        ((putUint32 (checksum (putUint32 b.length ++ b))).set (i - 4) v) b
        hL4 (by rw [List.length_set, hC4])
      rw [hsplit, hf1, hf2, hf3, if_neg]
      exact set_ne_self _ (i - 4) v (by rw [hC4]; omega) (hgd ▸ hne)
    · -- flip inside the payload
      have hsub8 : i - (putUint32 b.length ++
          putUint32 (checksum (putUint32 b.length ++ b))).length = i - 8 := by
        rw [List.length_append, hL4, hC4]
      have hgd : (serializeRecord b).getD i 0 = b.getD (i - 8) 0 := by
        unfold serializeRecord
        rw [List.getD_append_right _ _ _ i
            (by rw [List.length_append, hL4, hC4]; omega), hsub8]
      have hsplit : (serializeRecord b).set i v =
          putUint32 b.length ++ putUint32 (checksum (putUint32 b.length ++ b))
            ++ b.set (i - 8) v := by
        unfold serializeRecord
        rw [List.set_append,
          if_neg (by rw [List.length_append, hL4, hC4]; omega), hsub8]
      obtain ⟨hf1, hf2, hf3⟩ := record_fields (putUint32 b.length)
        (putUint32 (checksum (putUint32 b.length ++ b))) (b.set (i - 8) v)
        hL4 hC4
      rw [hsplit, hf1, hf2, hf3, if_neg]
      intro hcontra
      have hsub2 : i - 4 - (putUint32 b.length).length = i - 8 := by
        rw [hL4]
        omega
      have hsetLb : putUint32 b.length ++ b.set (i - 8) v =
          (putUint32 b.length ++ b).set (i - 4) v := by
        rw [List.set_append, if_neg (by rw [hL4]; omega), hsub2]
      have hgdLb : (putUint32 b.length ++ b).getD (i - 4) 0 =
          b.getD (i - 8) 0 := by
        rw [List.getD_append_right _ _ _ (i - 4) (by rw [hL4]; omega), hL4]
        congr 1
      have hckne : checksum ((putUint32 b.length ++ b).set (i - 4) v) ≠
          checksum (putUint32 b.length ++ b) := by
        refine checksum_set_ne _ (i - 4) v
          (by rw [List.length_append, hL4]; omega) hv ?_ ?_
        · rw [hgdLb]
          exact getD_lt_of_mem_lt hbytes (by omega)
        · rw [hgdLb, ← hgd]
          exact hne
      apply hckne
      rw [← hsetLb]
      exact (putUint32_inj (checksum_lt _) (checksum_lt _) hcontra).symm

end Ffldb

namespace Ffldb

theorem extract_set_middle (pre mid post : Bytes) (i v : Nat)
    (hi : i < mid.length) :
    extract ((pre ++ mid ++ post).set (pre.length + i) v) pre.length
      mid.length = mid.set i v := by
  have hsub : pre.length + i - pre.length = i := by omega
  have h1 : (pre ++ mid ++ post).set (pre.length + i) v =
      pre ++ mid.set i v ++ post := by
    rw [List.set_append,
      if_pos (by rw [List.length_append]; omega),
      List.set_append, if_neg (by omega), hsub]
  rw [h1, List.append_assoc]
  unfold extract
  rw [List.drop_left]
  have h2 : mid.length = (mid.set i v).length := (List.length_set mid i v).symm
  rw [h2, List.take_left]

/-- C4: flipping any single byte of a committed block's stored record — in
its length field, its checksum field or its payload — makes a subsequent
`FetchBlock` of that block return the corruption error, never a successful
result with different bytes.  The hypotheses say that the block's record is
committed at `loc` and that position `i` of the record is overwritten on
disk with a different byte value. -/
theorem fetchBlock_detects_corruption (db : DB) (b : Bytes)
    (loc : BlockLocation) (pre post : Bytes) (i v : Nat)
    (hbytes : ∀ c ∈ b, c < 256)
    (hfile : db.store.files loc.blockFileNum = pre ++ serializeRecord b ++ post)
    (hoff : loc.fileOffset = pre.length)
    (hlen : loc.blockLen = (serializeRecord b).length)
    (hidx : idxLookup db.meta.blockIdx (blockHash b) = some loc)
    (hi : i < (serializeRecord b).length) (hv : v < 256)
    (hne : v ≠ (serializeRecord b).getD i 0) :
    FetchBlock (corruptByte db loc.blockFileNum (loc.fileOffset + i) v)
      (blockHash b) = .error .corruption := by
  simp only [FetchBlock, corruptByte, hidx]
  rw [if_pos trivial]
  apply readBlock_set_corrupt _ _ b i v hbytes hi hv hne ?_ hlen
  rw [hfile, hoff, hlen]
  exact extract_set_middle pre (serializeRecord b) post i v hi

/-- Witness for C4 at concrete inputs: after committing block `[5,6,7]`,
flipping the first payload byte of its record on disk (position 8, value 5
set to 9) makes `FetchBlock` return the corruption error. -/
theorem fetchBlock_detects_corruption_witness :
    FetchBlock
      (corruptByte (commitTx (initDB 1000) ⟨[[5, 6, 7]], [], none⟩
        .noFault).db 0 8 9)
      (blockHash [5, 6, 7]) = .error .corruption :=
  fetchBlock_detects_corruption
    (commitTx (initDB 1000) ⟨[[5, 6, 7]], [], none⟩ .noFault).db
    [5, 6, 7] ⟨0, 0, 11⟩ [] [] 8 9 (by decide) (by decide) (by decide)
    (by decide) (by decide) (by decide) (by decide) (by decide)

end Ffldb

namespace Indexers

theorem disconnectAddr_connectAddr (ai : Bytes → List Bytes)
    (blk : IdxBlock) : disconnectAddrIdx (connectAddrIdx ai blk) blk = ai := by
  funext a
  show (ai a ++ addrEntriesOf blk a).take
      ((ai a ++ addrEntriesOf blk a).length -
        (addrEntriesOf blk a).length) = ai a
  rw [List.length_append, Nat.add_sub_cancel]
  exact List.take_left _ _

theorem hashIdx_cancel (bh : Bytes) :
    ∀ (ts : List IdxTx) (m : Bytes → Option (Bytes × Nat × Nat)),
    (ts.map IdxTx.txid).Nodup → (∀ t ∈ ts, m t.txid = none) →
    ts.foldr (fun t acc => fun k => if k = t.txid then none else acc k)
      (ts.foldl (fun acc t => fun k =>
        if k = t.txid then some (bh, t.txOffset, t.txLen) else acc k) m) =
      m := by
  intro ts
  induction ts with
  | nil => intro m _ _; rfl
  | cons t rest ih =>
    intro m hnd hfresh
    rw [List.foldl_cons, List.foldr_cons]
    have hnd2 : (∀ x ∈ rest, ¬x.txid = t.txid) ∧
        (List.map IdxTx.txid rest).Nodup := by simpa using hnd
    have hIH : rest.foldr
        (fun t acc => fun k => if k = t.txid then none else acc k)
        (rest.foldl (fun acc t => fun k =>
          if k = t.txid then some (bh, t.txOffset, t.txLen) else acc k)
          (fun k => if k = t.txid then some (bh, t.txOffset, t.txLen)
            else m k)) =
        fun k => if k = t.txid then some (bh, t.txOffset, t.txLen)
          else m k := by
      refine ih _ hnd2.2 ?_
      intro u hu
      rw [if_neg (hnd2.1 u hu)]
      exact hfresh u (List.mem_cons_of_mem _ hu)
    rw [hIH]
    funext k
    by_cases hk : k = t.txid
    · rw [if_pos hk, hk]
      exact (hfresh t (List.mem_cons_self _ _)).symm
    · rw [if_neg hk]
      exact if_neg hk

theorem disconnect_connect (s : IndexState) (blk : IdxBlock)
    (h : BlockFresh s blk) : DisconnectBlock (ConnectBlock s blk) blk = s := by
  obtain ⟨ti, ai⟩ := s
  have h1 : disconnectHashIdx (connectHashIdx ti blk) blk = ti :=
    hashIdx_cancel blk.hash blk.txs ti h.1 h.2
  have h2 : disconnectAddrIdx (connectAddrIdx ai blk) blk = ai :=
    disconnectAddr_connectAddr ai blk
  have hmk : DisconnectBlock (ConnectBlock ⟨ti, ai⟩ blk) blk =
      ⟨disconnectHashIdx (connectHashIdx ti blk) blk,
        disconnectAddrIdx (connectAddrIdx ai blk) blk⟩ := rfl
  rw [hmk, h1, h2]

theorem connectList_append (s : IndexState) (x y : List IdxBlock) :
    connectList s (x ++ y) = connectList (connectList s x) y := by
  unfold connectList
  rw [List.foldl_append]

theorem disconnectList_connectList (bs : List IdxBlock) :
    ∀ s : IndexState, FreshChain s bs →
      disconnectList (connectList s bs) bs = s := by
  induction bs with
  | nil => intro s _; rfl
  | cons b rest ih =>
    intro s h
    show DisconnectBlock
      (disconnectList (connectList (ConnectBlock s b) rest) rest) b = s
    rw [ih (ConnectBlock s b) h.2]
    exact disconnect_connect s b h.1

/-- C5: reorg equivalence for the registered indexers (the
transaction-by-hash and transaction-by-address indexes): connecting a run
`alo ++ ahi`, then disconnecting `ahi` from the tip downwards (each
`DisconnectBlock` exactly inverting its matching `ConnectBlock`), then
connecting a replacement branch `bbs`, leaves the stored index content
identical to connecting `alo` followed directly by `bbs`; no entry from the
disconnected branch survives.  The freshness hypothesis says the
disconnected branch's transactions were new when connected, which the
chain guarantees for confirmed blocks. -/
theorem reorg_equivalence (s : IndexState) (alo ahi bbs : List IdxBlock)
    (h : FreshChain (connectList s alo) ahi) :
    connectList (disconnectList (connectList s (alo ++ ahi)) ahi) bbs =
      connectList s (alo ++ bbs) := by
  rw [connectList_append s alo ahi,
    disconnectList_connectList ahi (connectList s alo) h,
    connectList_append s alo bbs]

/-- Witness for C5 at concrete inputs: connect blocks `A1, A2` to the empty
index, disconnect `A2`, connect `B2`; the content equals connecting `A1`
then `B2` directly. -/
theorem reorg_equivalence_witness :
    connectList
      (disconnectList
        (connectList IndexState.empty
          ([⟨[1], [⟨[10], 0, 5, [[100]]⟩]⟩] ++ [⟨[2], [⟨[20], 4, 6, [[100]]⟩]⟩]))
        [⟨[2], [⟨[20], 4, 6, [[100]]⟩]⟩])
      [⟨[3], [⟨[30], 2, 7, [[101]]⟩]⟩] =
    connectList IndexState.empty
      ([⟨[1], [⟨[10], 0, 5, [[100]]⟩]⟩] ++ [⟨[3], [⟨[30], 2, 7, [[101]]⟩]⟩]) :=
  reorg_equivalence IndexState.empty
    [⟨[1], [⟨[10], 0, 5, [[100]]⟩]⟩]
    [⟨[2], [⟨[20], 4, 6, [[100]]⟩]⟩]
    [⟨[3], [⟨[30], 2, 7, [[101]]⟩]⟩]
    ⟨⟨by decide, by decide⟩, trivial⟩

end Indexers

namespace Ffldb

theorem runOps_pending (db : DB) (ops : List TxOp) :
    ∀ tx tx' : PendingTx, runOps db tx ops = .ok tx' →
    (tx.pendingBlocks.map blockHash).Nodup →
    (∀ b ∈ tx.pendingBlocks, idxLookup db.meta.blockIdx (blockHash b) = none) →
    (tx'.pendingBlocks.map blockHash).Nodup ∧
      ∀ b ∈ tx'.pendingBlocks,
        idxLookup db.meta.blockIdx (blockHash b) = none := by
  induction ops with
  | nil =>
    intro tx tx' h hnd hfr
    cases Except.ok.inj h
    exact ⟨hnd, hfr⟩
  | cons op rest ih =>
    intro tx tx' h hnd hfr
    unfold runOps at h
    cases hop : applyOp db tx op with
    | error e => rw [hop] at h; cases h
    | ok tx1 =>
      rw [hop] at h
      cases op with
      | storeBlockOp b =>
        simp only [applyOp, StoreBlock] at hop
        by_cases hhas : hasBlock db tx (blockHash b)
        · rw [if_pos hhas] at hop; cases hop
        · rw [if_neg hhas] at hop
          cases Except.ok.inj hop
          simp only [hasBlock, Bool.or_eq_true, List.any_eq_true,
            decide_eq_true_eq, not_or, not_exists, not_and,
            Option.isSome_iff_exists] at hhas
          obtain ⟨hh1, hh2⟩ := hhas
          have hnone : idxLookup db.meta.blockIdx (blockHash b) = none := by
            cases hcase : idxLookup db.meta.blockIdx (blockHash b) with
            | none => rfl
            | some v => exact absurd hcase (hh1 v)
          refine ih _ _ h ?_ ?_
          · show ((tx.pendingBlocks ++ [b]).map blockHash).Nodup
            rw [List.map_append, List.nodup_append]
            refine ⟨hnd, by simp, ?_⟩
            intro a ha hb
            obtain ⟨b', hb', hbh⟩ := List.mem_map.mp ha
            simp only [List.map_cons, List.map_nil, List.mem_cons,
              List.not_mem_nil, or_false] at hb
            exact hh2 b' hb' (hbh.trans hb)
          · intro b' hb'
            rcases List.mem_append.mp hb' with hmem | hmem
            · exact hfr b' hmem
            · simp only [List.mem_cons, List.not_mem_nil, or_false] at hmem
              rw [hmem]
              exact hnone
      | putMeta k v =>
        cases Except.ok.inj hop
        exact ih _ _ h hnd hfr
      | deleteMeta k =>
        cases Except.ok.inj hop
        exact ih _ _ h hnd hfr
      | setBestState h0 ht =>
        cases Except.ok.inj hop
        exact ih _ _ h hnd hfr

end Ffldb

namespace Ffldb

theorem metaWF_update (db : DB) (prog : WriteProg) (fault : CommitFault)
    (h : MetaWF db) : MetaWF (Update db prog fault).1 := by
  unfold Update
  cases hro : runOps db PendingTx.empty prog.ops with
  | error e => exact h
  | ok tx =>
    cases prog.outcome with
    | appError c => exact h
    | fault => exact h
    | success =>
      obtain ⟨hnd, hfr⟩ := runOps_pending db prog.ops PendingTx.empty tx hro
        (by simp [PendingTx.empty]) (by simp [PendingTx.empty])
      show MetaWF (commitTx db tx fault).db
      by_cases he : tx.pendingBlocks = []
      · by_cases hf : fault = .metaCommitFail
        · subst hf
          rw [commitTx_empty_metaFail db tx he]
          exact h
        · rw [commitTx_empty_ok db tx fault he hf]
          have hbi : (applyMeta db.meta tx []).blockIdx = db.meta.blockIdx := by
            simp [applyMeta]
          refine ⟨?_, ?_, ?_⟩
          · show ((applyMeta db.meta tx []).blockIdx.map Prod.fst).Nodup
            rw [hbi]
            exact h.1
          · show ((applyMeta db.meta tx []).blockIdx.map Prod.snd).Nodup
            rw [hbi]
            exact h.2.1
          · show ∀ q ∈ (applyMeta db.meta tx []).blockIdx, _
            rw [hbi]
            exact h.2.2
      · obtain ⟨grow, hf2, hpw⟩ := writeBlocks_sound tx.pendingBlocks db.store
        cases fault with
        | syncFail =>
          rw [commitTx_syncFail_nonempty db tx he]
          refine ⟨h.1, h.2.1, ?_⟩
          intro q hq
          exact ⟨(h.2.2 q hq).1,
            Nat.le_trans (h.2.2 q hq).2 (grow q.2.blockFileNum).length_le⟩
        | metaCommitFail =>
          rw [commitTx_metaFail_nonempty db tx he]
          refine ⟨h.1, h.2.1, ?_⟩
          intro q hq
          exact ⟨(h.2.2 q hq).1,
            Nat.le_trans (h.2.2 q hq).2 (grow q.2.blockFileNum).length_le⟩
        | noFault =>
          rw [commitTx_noFault_nonempty db tx he]
          have hlen_eq : (tx.pendingBlocks.map blockHash).length =
              (writeBlocks db.store tx.pendingBlocks).2.length := by
            rw [List.length_map]
            exact hf2.length_eq
          have hfst : ((tx.pendingBlocks.map blockHash).zip
              (writeBlocks db.store tx.pendingBlocks).2).map Prod.fst =
              tx.pendingBlocks.map blockHash :=
            List.map_fst_zip _ _ (Nat.le_of_eq hlen_eq)
          have hsnd : ((tx.pendingBlocks.map blockHash).zip
              (writeBlocks db.store tx.pendingBlocks).2).map Prod.snd =
              (writeBlocks db.store tx.pendingBlocks).2 :=
            List.map_snd_zip _ _ (Nat.le_of_eq hlen_eq.symm)
          have hlen8 : ∀ l ∈ (writeBlocks db.store tx.pendingBlocks).2,
              8 ≤ l.blockLen := by
            intro l hl
            obtain ⟨a, _, hrel⟩ := forall₂_mem_right hf2 l hl
            rw [hrel.1, serializeRecord_length]
            omega
          refine ⟨?_, ?_, ?_⟩
          · show ((db.meta.blockIdx ++ (tx.pendingBlocks.map blockHash).zip
              (writeBlocks db.store tx.pendingBlocks).2).map Prod.fst).Nodup
            rw [List.map_append, hfst, List.nodup_append]
            refine ⟨h.1, hnd, ?_⟩
            intro a ha hb
            obtain ⟨b', hb', hbh⟩ := List.mem_map.mp hb
            have := hfr b' hb'
            rw [hbh] at this
            exact (idxLookup_eq_none.mp this) ha
          · show ((db.meta.blockIdx ++ (tx.pendingBlocks.map blockHash).zip
              (writeBlocks db.store tx.pendingBlocks).2).map Prod.snd).Nodup
            rw [List.map_append, hsnd, List.nodup_append]
            refine ⟨h.2.1, ?_, ?_⟩
            · refine hpw.imp_of_mem ?_
              intro l1 l2 hm1 _ hr heq
              subst heq
              have h8 := hlen8 l1 hm1
              have := hr rfl
              omega
            · intro l hl hlocs
              obtain ⟨q, hq, hql⟩ := List.mem_map.mp hl
              obtain ⟨a, _, hrel⟩ := forall₂_mem_right hf2 l hlocs
              have hb1 := (h.2.2 q hq).1
              have hb2 := (h.2.2 q hq).2
              rw [hql] at hb1 hb2
              have := hrel.2.1
              omega
          · intro q hq
            rcases List.mem_append.mp hq with hq | hq
            · refine ⟨(h.2.2 q hq).1, ?_⟩
              show q.2.fileOffset + q.2.blockLen ≤
                ((writeBlocks db.store tx.pendingBlocks).1.files
                  q.2.blockFileNum).length
              exact Nat.le_trans (h.2.2 q hq).2
                (grow q.2.blockFileNum).length_le
            · obtain ⟨a, _, hrel⟩ := zip_map_mem_rel hf2 q hq
              refine ⟨by rw [hrel.1, serializeRecord_length]; omega, ?_⟩
              show q.2.fileOffset + q.2.blockLen ≤
                ((writeBlocks db.store tx.pendingBlocks).1.files
                  q.2.blockFileNum).length
              exact hrel.2.2.1

theorem reachable_metaWF (db : DB) (h : Reachable db) : MetaWF db := by
  induction h with
  | init cap =>
    refine ⟨by simp [initDB], by simp [initDB], ?_⟩
    intro q hq
    simp [initDB] at hq
  | step db prog fault _ ih => exact metaWF_update db prog fault ih

/-- C7: in every state reachable by write transactions from a fresh
database, the committed hash→location map is a bijection — no committed
hash maps to two locations and no location is referenced by two hashes —
and every operation of the store (each `Update`, committed, rolled back or
faulted at any commit step) preserves this. -/
theorem reachable_hashLocation_bijective (db : DB) (h : Reachable db) :
    (db.meta.blockIdx.map Prod.fst).Nodup ∧
    (db.meta.blockIdx.map Prod.snd).Nodup := by
  obtain ⟨h1, h2, _⟩ := reachable_metaWF db h
  exact ⟨h1, h2⟩

/-- Witness for C7 at concrete inputs: the state reached by committing two
blocks into the fresh database has a bijective hash→location map. -/
theorem reachable_hashLocation_bijective_witness :
    (((Update (initDB 1000)
        ⟨[.storeBlockOp [5, 6, 7], .storeBlockOp [8, 9]], .success⟩
        .noFault).1).meta.blockIdx.map Prod.fst).Nodup ∧
    (((Update (initDB 1000)
        ⟨[.storeBlockOp [5, 6, 7], .storeBlockOp [8, 9]], .success⟩
        .noFault).1).meta.blockIdx.map Prod.snd).Nodup :=
  reachable_hashLocation_bijective _
    (Reachable.step (initDB 1000)
      ⟨[.storeBlockOp [5, 6, 7], .storeBlockOp [8, 9]], .success⟩
      .noFault (Reachable.init 1000))

end Ffldb
